import Mathlib

/-
  Verification of the Unit-of-Work / transaction-stack engine of the
  py-cqrs-message-bus repository.

  The definitions below are a shallow embedding of the final implementation:
    - src/mb/unit_of_work/utils/events_collector.py (EventsFifo, DedupeEventsFifo)
    - src/mb/unit_of_work/uow.py (UnitOfWork, Transaction)
  Events are modelled structurally: dataclass-style messages compare by
  message name plus field values (tests define events with @dataclass, see
  src/tests/fixtures/scenarios/create_user.py), and Event.is_persistent()
  (src/mb/events.py) is a per-event flag.

  Handlers are opaque callables; dispatching a handler either returns or
  raises, which we record with a `fails` flag.  The bus is abstracted to its
  one query the dispatch loop uses, `get_event_handlers : Event → List Handler`
  (src/mb/bus.py).  The model is single-threaded, so the context-variable
  bookkeeping of `_begin_global`/`_end_global` (which can only fail across
  threads) is omitted.
-/

namespace MB

/-- An event instance: message `NAME`, payload field values, and the
`is_persistent()` flag of src/mb/events.py.  Dataclass equality is the
structural equality of these fields. -/
structure Event where
  name : String
  payload : List String
  persistent : Bool
deriving DecidableEq, Repr

/-- `Event.is_persistent()` from src/mb/events.py: a per-event flag, `False`
by default, overridden by event subtypes that must survive rollback. -/
def Event.is_persistent (e : Event) : Bool := e.persistent

/-- An event subscriber callable.  `fails` records whether invoking it raises
an exception. -/
structure Handler where
  id : Nat
  fails : Bool
deriving DecidableEq, Repr

/-- The bus, reduced to the query used by final dispatch:
`MessageBus.get_event_handlers` (src/mb/bus.py) returns the ordered,
deduplicated list of subscribers of an event. -/
def Bus := Event → List Handler

/-- One subscriber invocation: which handler was called with which event. -/
def Call := Event × Handler
deriving instance DecidableEq, Repr for Call

/-- Observable outcome of a dispatch loop: the subscriber invocations made,
in order, and the subscriber exceptions that were caught and error-logged. -/
structure Trace where
  calls : List Call
  logged : List Call
deriving DecidableEq, Repr

def Trace.empty : Trace := ⟨[], []⟩

def Trace.append (a b : Trace) : Trace := ⟨a.calls ++ b.calls, a.logged ++ b.logged⟩

/-- Inner loop of `UnitOfWork._handle_events` (src/mb/unit_of_work/uow.py,
lines 199-207): every handler of the event is invoked; a raising handler is
caught by `except Exception` and error-logged, and the loop continues. -/
def handleHandlers (e : Event) : List Handler → Trace
  | [] => Trace.empty
  | h :: hs =>
    let rest := handleHandlers e hs
    ⟨(e, h) :: rest.calls, if h.fails then (e, h) :: rest.logged else rest.logged⟩

/-- Outer loop of `UnitOfWork._handle_events`: for each buffered event, get
its handlers from the bus and invoke them all. -/
def handleEvents (bus : Bus) : List Event → Trace
  | [] => Trace.empty
  | e :: es => (handleHandlers e (bus e)).append (handleEvents bus es)

/-- The expected sequence of subscriber invocations for a list of events:
per event, in order, one call per handler the bus returns. -/
def dispatchCalls (bus : Bus) (evs : List Event) : List Call :=
  evs.flatMap fun e => (bus e).map fun h => (e, h)

/-- `EventsFifo` (src/mb/unit_of_work/utils/events_collector.py, lines 48-77):
a plain FIFO event buffer backed by a Python list. -/
structure EventsFifo where
  queue : List Event
deriving DecidableEq, Repr

/-- `EventsFifo.push`: `self.queue.append(event)`. -/
def EventsFifo.push (c : EventsFifo) (e : Event) : EventsFifo :=
  ⟨c.queue ++ [e]⟩

/-- `EventsFifo.pop`: `self.queue.pop()` removes the LAST element;
`none` models the IndexError raised on an empty list. -/
def EventsFifo.pop (c : EventsFifo) : Option (Event × EventsFifo) :=
  match c.queue.getLast? with
  | none => none
  | some e => some (e, ⟨c.queue.dropLast⟩)

/-- `EventsFifo.extend`: `self.queue.extend(events)` appends the other
collector's elements in iteration order. -/
def EventsFifo.extend (c o : EventsFifo) : EventsFifo :=
  ⟨c.queue ++ o.queue⟩

/-- `EventsFifo.clear`: `self.queue = [e for e in self.queue if e.is_persistent()]`
— non-persistent events are dropped, persistent ones retained. -/
def EventsFifo.clear (c : EventsFifo) : EventsFifo :=
  ⟨c.queue.filter Event.is_persistent⟩

/-- `DedupeEventsFifo` (src/mb/unit_of_work/utils/events_collector.py,
lines 80-117): a FIFO with a backing membership set `seen`. -/
structure DedupeEventsFifo where
  queue : List Event
  seen : Finset Event
deriving DecidableEq

/-- A fresh `DedupeEventsFifo()`: empty list, empty set. -/
def DedupeEventsFifo.init : DedupeEventsFifo := ⟨[], ∅⟩

/-- `DedupeEventsFifo.__contains__`: membership is tested on `seen`. -/
def DedupeEventsFifo.containsEvent (c : DedupeEventsFifo) (e : Event) : Bool :=
  e ∈ c.seen

/-- `DedupeEventsFifo.push`: `if event not in self: seen.add(event); queue.append(event)`. -/
def DedupeEventsFifo.push (c : DedupeEventsFifo) (e : Event) : DedupeEventsFifo :=
  if e ∈ c.seen then c else ⟨c.queue ++ [e], insert e c.seen⟩

/-- `DedupeEventsFifo.pop`: `event = queue.pop(); seen.remove(event)`.
`none` models the IndexError on an empty queue and the KeyError raised by
`set.remove` when the element is absent. -/
def DedupeEventsFifo.pop (c : DedupeEventsFifo) : Option (Event × DedupeEventsFifo) :=
  match c.queue.getLast? with
  | none => none
  | some e =>
    if e ∈ c.seen then some (e, ⟨c.queue.dropLast, c.seen.erase e⟩) else none

/-- `DedupeEventsFifo.extend`: pushes each element of the other collector in
iteration order, so merging still dedups. -/
def DedupeEventsFifo.extend (c : DedupeEventsFifo) (es : List Event) : DedupeEventsFifo :=
  es.foldl DedupeEventsFifo.push c

/-- `DedupeEventsFifo.clear`:
`self.queue = [e for e in self.queue if e.is_persistent()]; self.seen = set(self.queue)`. -/
def DedupeEventsFifo.clear (c : DedupeEventsFifo) : DedupeEventsFifo :=
  let q := c.queue.filter Event.is_persistent
  ⟨q, q.toFinset⟩

/-- Errors raised by the unit of work itself (src/mb/exceptions.py as used by
src/mb/unit_of_work/uow.py). -/
inductive UowError
  | uowTransaction
  | programming
deriving DecidableEq, Repr

/-- The mutable state of a `UnitOfWork` (src/mb/unit_of_work/uow.py): the
transaction stack — each stack entry is that transaction's own EventsFifo
collector, top of stack at the head, a transaction's `parent` being the next
entry — and the `autocommit` flag.  `events_collector_cls` is the default,
`EventsFifo`. -/
structure UnitOfWork where
  stack : List EventsFifo
  autocommit : Bool
deriving DecidableEq, Repr

/-- `UnitOfWork._begin_transaction`: push a new transaction with a fresh
collector whose parent is the previous stack top. -/
def UnitOfWork.beginTransaction (st : UnitOfWork) : UnitOfWork :=
  { st with stack := ⟨[]⟩ :: st.stack }

/-- `UnitOfWork._end_transaction` (src/mb/unit_of_work/uow.py, lines 127-133):
raises `UowTransactionError` when no transaction is in progress, otherwise
pops and returns the top transaction. -/
def UnitOfWork.endTransaction (st : UnitOfWork) :
    Except UowError (EventsFifo × UnitOfWork) :=
  match st.stack with
  | [] => .error .uowTransaction
  | t :: rest => .ok (t, { st with stack := rest })

/-- `UnitOfWork._handle_events` (src/mb/unit_of_work/uow.py, lines 192-207):
guarded by `if self.stack: raise ProgrammingError`, then the dispatch loop. -/
def UnitOfWork.handle_events (bus : Bus) (st : UnitOfWork) (events : List Event) :
    Except UowError Trace :=
  if st.stack = [] then .ok (handleEvents bus events) else .error .programming

/-- `UnitOfWork._commit` composed with `Transaction.commit`
(src/mb/unit_of_work/uow.py, lines 135-140 and 240-242): pop the top
transaction; if a parent remains on the stack, `parent.collect_event_many`
extends the parent's collector with the child's events and nothing is
dispatched; if the stack became empty this was the root and its events are
dispatched by `_handle_events`. -/
def UnitOfWork.commit (bus : Bus) (st : UnitOfWork) :
    Except UowError (UnitOfWork × Trace) :=
  match st.endTransaction with
  | .error err => .error err
  | .ok (t, st') =>
    match st'.stack with
    | parent :: rest => .ok ({ st' with stack := parent.extend t :: rest }, Trace.empty)
    | [] =>
      match UnitOfWork.handle_events bus st' t.queue with
      | .error err => .error err
      | .ok tr => .ok (st', tr)

/-- `UnitOfWork._rollback` composed with `Transaction.rollback`
(src/mb/unit_of_work/uow.py, lines 142-149 and 244-245): pop the top
transaction and `clear()` its collector (which retains persistent events);
if the stack became empty, the retained events are still dispatched; a
popped nested transaction is simply dropped, never merged into its parent. -/
def UnitOfWork.rollback (bus : Bus) (st : UnitOfWork) :
    Except UowError (UnitOfWork × Trace) :=
  match st.endTransaction with
  | .error err => .error err
  | .ok (t, st') =>
    let cleared := t.clear
    match st'.stack with
    | _ :: _ => .ok (st', Trace.empty)
    | [] =>
      match UnitOfWork.handle_events bus st' cleared.queue with
      | .error err => .error err
      | .ok tr => .ok (st', tr)

/-- `UnitOfWork.emit_event` (src/mb/unit_of_work/uow.py, lines 168-190):
inside a transaction the event is buffered on the top transaction's
collector; outside a transaction it is dispatched immediately when
`autocommit` is on, and `UowTransactionError` is raised when it is off.
(The `isinstance(event, Event)` guard holds by typing here.) -/
def UnitOfWork.emit_event (bus : Bus) (st : UnitOfWork) (e : Event) :
    Except UowError (UnitOfWork × Trace) :=
  match st.stack with
  | top :: rest => .ok ({ st with stack := top.push e :: rest }, Trace.empty)
  | [] =>
    if st.autocommit then
      match UnitOfWork.handle_events bus st [e] with
      | .error err => .error err
      | .ok tr => .ok (st, tr)
    else
      .error .uowTransaction

/-- An exception propagating through scopes: either an application exception
raised by user code inside the scope, or an error raised by the unit of work. -/
inductive Exc
  | user (n : Nat)
  | lib (err : UowError)
deriving DecidableEq, Repr

/-- Client code running against one unit of work: emit an event, raise an
application exception, or open a `with uow:` scope around a body. -/
inductive Stmt
  | skip
  | seq (a b : Stmt)
  | emit (e : Event)
  | raiseExc (n : Nat)
  | scope (body : Stmt)
deriving DecidableEq, Repr

/-- Big-step execution of client code.  `__enter__` begins a transaction;
`__exit__` commits when the body finished normally and rolls back when it
raised, and the body's exception then propagates unchanged (`__exit__`
returns `None`).  The result is the propagating exception (if any), the
final unit-of-work state, and the dispatch trace. -/
def runStmt (bus : Bus) : UnitOfWork → Stmt → Option Exc × UnitOfWork × Trace
  | st, .skip => (none, st, Trace.empty)
  | st, .seq a b =>
    match runStmt bus st a with
    | (none, st₁, tr₁) =>
      match runStmt bus st₁ b with
      | (r, st₂, tr₂) => (r, st₂, tr₁.append tr₂)
    | (some exc, st₁, tr₁) => (some exc, st₁, tr₁)
  | st, .emit e =>
    match UnitOfWork.emit_event bus st e with
    | .ok (st₁, tr) => (none, st₁, tr)
    | .error err => (some (.lib err), st, Trace.empty)
  | st, .raiseExc n => (some (.user n), st, Trace.empty)
  | st, .scope body =>
    let st₁ := st.beginTransaction
    match runStmt bus st₁ body with
    | (none, st₂, tr) =>
      match UnitOfWork.commit bus st₂ with
      | .ok (st₃, tr') => (none, st₃, tr.append tr')
      | .error err => (some (.lib err), st₂, tr)
    | (some exc, st₂, tr) =>
      match UnitOfWork.rollback bus st₂ with
      | .ok (st₃, tr') => (some exc, st₃, tr.append tr')
      | .error err => (some (.lib err), st₂, tr)

/-- The events a statement emits, in program order; a nested scope's events
appear at the point the scope runs. -/
def emitted : Stmt → List Event
  | .skip => []
  | .seq a b => emitted a ++ emitted b
  | .emit e => [e]
  | .raiseExc _ => []
  | .scope body => emitted body

/-- A statement that raises no application exception. -/
def noRaise : Stmt → Bool
  | .skip => true
  | .seq a b => noRaise a && noRaise b
  | .emit _ => true
  | .raiseExc _ => false
  | .scope body => noRaise body

theorem Trace.empty_append (t : Trace) : Trace.empty.append t = t := by
  cases t; simp [Trace.append, Trace.empty]

theorem Trace.append_empty (t : Trace) : t.append Trace.empty = t := by
  cases t; simp [Trace.append, Trace.empty]

theorem handleHandlers_calls (e : Event) (hs : List Handler) :
    (handleHandlers e hs).calls = hs.map fun h => (e, h) := by
  induction hs with
  | nil => rfl
  | cons h t ih => simp [handleHandlers, ih]

theorem handleHandlers_logged (e : Event) (hs : List Handler) :
    (handleHandlers e hs).logged =
      (hs.map fun h => (e, h)).filter fun call => call.2.fails := by
  induction hs with
  | nil => rfl
  | cons h t ih =>
    cases hf : h.fails <;> simp [handleHandlers, ih, hf, List.filter_cons]

theorem handleEvents_calls (bus : Bus) (evs : List Event) :
    (handleEvents bus evs).calls = dispatchCalls bus evs := by
  induction evs with
  | nil => rfl
  | cons e es ih =>
    simp [handleEvents, Trace.append, handleHandlers_calls, ih, dispatchCalls]

theorem handleEvents_logged (bus : Bus) (evs : List Event) :
    (handleEvents bus evs).logged =
      (dispatchCalls bus evs).filter fun call => call.2.fails := by
  induction evs with
  | nil => rfl
  | cons e es ih =>
    simp only [handleEvents, Trace.append, handleHandlers_logged, ih, dispatchCalls,
      List.flatMap_cons, List.filter_append]
    rfl

theorem commit_cons_cons (bus : Bus) (t p : EventsFifo) (rest : List EventsFifo) (ac : Bool) :
    UnitOfWork.commit bus ⟨t :: p :: rest, ac⟩ =
      .ok (⟨p.extend t :: rest, ac⟩, Trace.empty) := rfl

theorem commit_root (bus : Bus) (t : EventsFifo) (ac : Bool) :
    UnitOfWork.commit bus ⟨[t], ac⟩ = .ok (⟨[], ac⟩, handleEvents bus t.queue) := by
  simp [UnitOfWork.commit, UnitOfWork.endTransaction, UnitOfWork.handle_events]

theorem commit_empty (bus : Bus) (ac : Bool) :
    UnitOfWork.commit bus ⟨[], ac⟩ = .error .uowTransaction := rfl

theorem rollback_cons_cons (bus : Bus) (t p : EventsFifo) (rest : List EventsFifo) (ac : Bool) :
    UnitOfWork.rollback bus ⟨t :: p :: rest, ac⟩ = .ok (⟨p :: rest, ac⟩, Trace.empty) := rfl

theorem rollback_root (bus : Bus) (t : EventsFifo) (ac : Bool) :
    UnitOfWork.rollback bus ⟨[t], ac⟩ =
      .ok (⟨[], ac⟩, handleEvents bus (t.queue.filter Event.is_persistent)) := by
  simp [UnitOfWork.rollback, UnitOfWork.endTransaction, UnitOfWork.handle_events,
    EventsFifo.clear]

theorem rollback_empty (bus : Bus) (ac : Bool) :
    UnitOfWork.rollback bus ⟨[], ac⟩ = .error .uowTransaction := rfl

theorem commit_success (bus : Bus) (st : UnitOfWork) (h : st.stack ≠ []) :
    ∃ st' tr, UnitOfWork.commit bus st = .ok (st', tr) ∧
      st'.stack.length + 1 = st.stack.length := by
  obtain ⟨stack, ac⟩ := st
  match stack with
  | [] => exact absurd rfl h
  | [t] => exact ⟨⟨[], ac⟩, handleEvents bus t.queue, commit_root bus t ac, rfl⟩
  | t :: p :: rest =>
    exact ⟨⟨p.extend t :: rest, ac⟩, Trace.empty, commit_cons_cons bus t p rest ac, rfl⟩

theorem rollback_success (bus : Bus) (st : UnitOfWork) (h : st.stack ≠ []) :
    ∃ st' tr, UnitOfWork.rollback bus st = .ok (st', tr) ∧
      st'.stack.length + 1 = st.stack.length := by
  obtain ⟨stack, ac⟩ := st
  match stack with
  | [] => exact absurd rfl h
  | [t] =>
    exact ⟨⟨[], ac⟩, handleEvents bus (t.queue.filter Event.is_persistent),
      rollback_root bus t ac, rfl⟩
  | t :: p :: rest =>
    exact ⟨⟨p :: rest, ac⟩, Trace.empty, rollback_cons_cons bus t p rest ac, rfl⟩

theorem run_stack_length (bus : Bus) (p : Stmt) : ∀ st : UnitOfWork,
    (runStmt bus st p).2.1.stack.length = st.stack.length := by
  induction p with
  | skip => intro st; rfl
  | seq a b iha ihb =>
    intro st
    have ha := iha st
    rcases h : runStmt bus st a with ⟨r, st₁, tr₁⟩
    rw [h] at ha
    cases r with
    | none =>
      have hb := ihb st₁
      rcases h2 : runStmt bus st₁ b with ⟨r₂, st₂, tr₂⟩
      rw [h2] at hb
      simp only [runStmt, h, h2]
      simp at ha hb ⊢
      omega
    | some exc => simp only [runStmt, h]; simpa using ha
  | emit e =>
    intro st
    obtain ⟨stack, ac⟩ := st
    match stack with
    | [] =>
      cases ac <;>
        simp [runStmt, UnitOfWork.emit_event, UnitOfWork.handle_events]
    | t :: rest => simp [runStmt, UnitOfWork.emit_event]
  | raiseExc n => intro st; rfl
  | scope body ih =>
    intro st
    have hb := ih st.beginTransaction
    rcases h : runStmt bus st.beginTransaction body with ⟨r, st₂, tr⟩
    rw [h] at hb
    have hlen : st₂.stack.length = st.stack.length + 1 := by
      simpa [UnitOfWork.beginTransaction] using hb
    have hne : st₂.stack ≠ [] := by
      intro hh; rw [hh] at hlen; simp at hlen
    cases r with
    | none =>
      obtain ⟨st₃, tr', hc, hl⟩ := commit_success bus st₂ hne
      simp only [runStmt, h, hc]
      omega
    | some exc =>
      obtain ⟨st₃, tr', hc, hl⟩ := rollback_success bus st₂ hne
      simp only [runStmt, h, hc]
      omega

theorem run_noRaise (bus : Bus) (p : Stmt) (hp : noRaise p = true) :
    ∀ (top : EventsFifo) (rest : List EventsFifo) (ac : Bool),
    runStmt bus ⟨top :: rest, ac⟩ p =
      (none, ⟨⟨top.queue ++ emitted p⟩ :: rest, ac⟩, Trace.empty) := by
  induction p with
  | skip => intro top rest ac; simp [runStmt, emitted]
  | seq a b iha ihb =>
    intro top rest ac
    rw [noRaise, Bool.and_eq_true] at hp
    simp only [runStmt, iha hp.1 top rest ac, ihb hp.2]
    simp [emitted, Trace.append, Trace.empty, List.append_assoc]
  | emit e =>
    intro top rest ac
    simp [runStmt, UnitOfWork.emit_event, EventsFifo.push, emitted]
  | raiseExc n => rw [noRaise] at hp; exact absurd hp (by simp)
  | scope body ih =>
    intro top rest ac
    rw [noRaise] at hp
    simp only [runStmt, UnitOfWork.beginTransaction]
    rw [ih hp ⟨[]⟩ (top :: rest) ac]
    simp [commit_cons_cons, EventsFifo.extend, emitted, Trace.append, Trace.empty]

/-- The public operations of `DedupeEventsFifo`. -/
inductive DOp
  | push (e : Event)
  | pop
  | extend (es : List Event)
  | clear
deriving DecidableEq, Repr

/-- Apply one collector operation; `none` when the operation raises
(`pop` on an empty queue). -/
def dApply (c : DedupeEventsFifo) : DOp → Option DedupeEventsFifo
  | .push e => some (c.push e)
  | .pop => c.pop.map fun pr => pr.2
  | .extend es => some (c.extend es)
  | .clear => some c.clear

def dRunFrom (c : DedupeEventsFifo) : List DOp → Option DedupeEventsFifo
  | [] => some c
  | op :: ops =>
    match dApply c op with
    | none => none
    | some c' => dRunFrom c' ops

/-- Run a sequence of collector operations from a fresh `DedupeEventsFifo()`. -/
def dRun (ops : List DOp) : Option DedupeEventsFifo :=
  dRunFrom DedupeEventsFifo.init ops

/-- Representation invariant of `DedupeEventsFifo`: the queue has no
duplicates and `seen` is exactly the set of queued events. -/
def DInv (c : DedupeEventsFifo) : Prop :=
  c.queue.Nodup ∧ c.seen = c.queue.toFinset

theorem dinv_init : DInv DedupeEventsFifo.init := by
  constructor <;> simp [DedupeEventsFifo.init]

theorem dinv_push (c : DedupeEventsFifo) (e : Event) (h : DInv c) : DInv (c.push e) := by
  obtain ⟨hn, hs⟩ := h
  by_cases he : e ∈ c.seen
  · simpa [DedupeEventsFifo.push, he] using ⟨hn, hs⟩
  · have he' : e ∉ c.queue := by
      rw [hs] at he; simpa using he
    constructor
    · simp [DedupeEventsFifo.push, he, List.nodup_append, hn, he']
    · simp only [DedupeEventsFifo.push, he, if_false]
      rw [hs]
      ext x
      simp [or_comm]

theorem dinv_pop (c : DedupeEventsFifo) (h : DInv c) (e : Event) (c' : DedupeEventsFifo)
    (hp : c.pop = some (e, c')) : DInv c' := by
  obtain ⟨hn, hs⟩ := h
  unfold DedupeEventsFifo.pop at hp
  cases hlast : c.queue.getLast? with
  | none => rw [hlast] at hp; exact absurd hp (by simp)
  | some x =>
    rw [hlast] at hp
    obtain ⟨front, hq⟩ := List.getLast?_eq_some_iff.mp hlast
    have hmem : x ∈ c.seen := by
      rw [hs, hq]; simp
    simp only [hmem, if_true] at hp
    rcases hp with ⟨rfl, rfl⟩
    have hfront : e ∉ front ∧ front.Nodup := by
      rw [hq] at hn
      simp [List.nodup_append] at hn
      exact ⟨hn.2, hn.1⟩
    constructor
    · simp only [hq, List.dropLast_concat]
      exact hfront.2
    · show c.seen.erase e = c.queue.dropLast.toFinset
      simp only [hq, List.dropLast_concat]
      rw [hs, hq]
      have hins : (front ++ [e]).toFinset = insert e front.toFinset := by
        ext y; simp [or_comm]
      rw [hins, Finset.erase_insert]
      simpa using hfront.1

theorem dinv_extend (es : List Event) : ∀ (c : DedupeEventsFifo), DInv c →
    DInv (c.extend es) := by
  induction es with
  | nil => intro c h; simpa [DedupeEventsFifo.extend] using h
  | cons e es ih =>
    intro c h
    have := ih (c.push e) (dinv_push c e h)
    simpa [DedupeEventsFifo.extend] using this

theorem dinv_clear (c : DedupeEventsFifo) (h : DInv c) : DInv c.clear :=
  ⟨h.1.filter Event.is_persistent, rfl⟩

theorem dinv_apply (c c' : DedupeEventsFifo) (op : DOp) (h : DInv c)
    (ha : dApply c op = some c') : DInv c' := by
  cases op with
  | push e =>
    obtain hcc := by simpa [dApply] using ha
    rw [← hcc]; exact dinv_push c e h
  | pop =>
    cases hp : c.pop with
    | none => rw [dApply, hp] at ha; exact absurd ha (by simp)
    | some pr =>
      rw [dApply, hp] at ha
      obtain hcc := by simpa using ha
      rw [← hcc]
      exact dinv_pop c h pr.1 pr.2 (by rw [hp])
  | extend es =>
    obtain hcc := by simpa [dApply] using ha
    rw [← hcc]; exact dinv_extend es c h
  | clear =>
    obtain hcc := by simpa [dApply] using ha
    rw [← hcc]; exact dinv_clear c h

theorem dinv_runFrom : ∀ (ops : List DOp) (c c' : DedupeEventsFifo), DInv c →
    dRunFrom c ops = some c' → DInv c' := by
  intro ops
  induction ops with
  | nil =>
    intro c c' h hr
    obtain hcc := by simpa [dRunFrom] using hr
    rw [← hcc]; exact h
  | cons op ops ih =>
    intro c c' h hr
    rw [dRunFrom] at hr
    cases ha : dApply c op with
    | none => rw [ha] at hr; exact absurd hr (by simp)
    | some c₁ =>
      rw [ha] at hr
      exact ih c₁ c' (dinv_apply c c₁ op h ha) hr

/-- A sample non-persistent event. -/
def eventA : Event := ⟨"user.created", ["alice"], false⟩

/-- A second, distinct non-persistent event. -/
def eventB : Event := ⟨"user.created", ["bob"], false⟩

/-- A sample persistent event. -/
def eventP : Event := ⟨"auth.denied", ["alice"], true⟩

/-- A sample bus: persistent events have one succeeding subscriber; all other
events have a succeeding and a failing subscriber. -/
def busA : Bus := fun e =>
  if e.persistent then [⟨0, false⟩] else [⟨0, false⟩, ⟨1, true⟩]

/-- A sample scope body: emit `eventA` directly, then emit `eventB` inside a
committed nested scope. -/
def stmtAB : Stmt := .seq (.emit eventA) (.scope (.emit eventB))

/-- C1: for every unit of work, committing a nested (non-root) transaction
appends the child's buffered events to the parent transaction's buffer
(`parent.collect_event_many`) and dispatches nothing to subscribers; dispatch
happens (only) when the outermost transaction commits. -/
theorem claim_nested_commit_merges_no_dispatch (bus : Bus) (ac : Bool)
    (c p : EventsFifo) (rest : List EventsFifo) :
    UnitOfWork.commit bus ⟨c :: p :: rest, ac⟩ =
      .ok (⟨⟨p.queue ++ c.queue⟩ :: rest, ac⟩, Trace.empty) ∧
    UnitOfWork.commit bus ⟨[c], ac⟩ = .ok (⟨[], ac⟩, handleEvents bus c.queue) :=
  ⟨commit_cons_cons bus c p rest ac, commit_root bus c ac⟩

/-- C2: for every sequence of events emitted inside one unit-of-work scope —
including events merged up from committed nested scopes — committing the
outermost transaction invokes the subscribers of each emitted event exactly
once, in emission order (`emitted` flattens nested scopes in program order,
so a child's merged events come after the events the parent had already
buffered directly). -/
theorem claim_emission_order_exactly_once (bus : Bus) (ac : Bool) (body : Stmt)
    (h : noRaise body = true) :
    runStmt bus ⟨[], ac⟩ (.scope body) =
      (none, ⟨[], ac⟩, handleEvents bus (emitted body)) ∧
    (handleEvents bus (emitted body)).calls = dispatchCalls bus (emitted body) := by
  constructor
  · simp only [runStmt, UnitOfWork.beginTransaction]
    rw [run_noRaise bus body h ⟨[]⟩ [] ac]
    simp [commit_root, Trace.empty_append]
  · exact handleEvents_calls bus (emitted body)

/-- Witness for C2: a concrete program emitting `eventA` in the root scope and
`eventB` in a committed nested scope. -/
theorem claim_emission_order_exactly_once_witness :
    noRaise stmtAB = true ∧
    (runStmt busA ⟨[], true⟩ (.scope stmtAB) =
      (none, ⟨[], true⟩, handleEvents busA (emitted stmtAB)) ∧
    (handleEvents busA (emitted stmtAB)).calls = dispatchCalls busA (emitted stmtAB)) :=
  ⟨by decide, claim_emission_order_exactly_once busA true stmtAB (by decide)⟩

/-- C3: a scope that exits via a raised exception discards all non-persistent
events buffered in its transaction — zero subscriber invocations — and the
exception propagates unchanged to the caller; for a nested scope the buffer
is dropped without any dispatch regardless of persistence. -/
theorem claim_exception_rolls_back_discards (bus : Bus) (ac : Bool) (p : Stmt) (n : Nat)
    (hp : noRaise p = true) (hnp : ∀ e ∈ emitted p, e.is_persistent = false) :
    runStmt bus ⟨[], ac⟩ (.scope (.seq p (.raiseExc n))) =
      (some (.user n), ⟨[], ac⟩, Trace.empty) ∧
    ∀ (top : EventsFifo) (rest : List EventsFifo),
      runStmt bus ⟨top :: rest, ac⟩ (.scope (.seq p (.raiseExc n))) =
        (some (.user n), ⟨top :: rest, ac⟩, Trace.empty) := by
  have hfil : (emitted p).filter Event.is_persistent = [] := by
    rw [List.filter_eq_nil_iff]
    intro e he
    simp [hnp e he]
  constructor
  · simp only [runStmt, UnitOfWork.beginTransaction]
    rw [run_noRaise bus p hp ⟨[]⟩ [] ac]
    simp [rollback_root, hfil, handleEvents, Trace.append_empty, Trace.empty_append]
  · intro top rest
    simp only [runStmt, UnitOfWork.beginTransaction]
    rw [run_noRaise bus p hp ⟨[]⟩ (top :: rest) ac]
    simp [rollback_cons_cons, Trace.append_empty, Trace.empty_append]

/-- Witness for C3: emit the non-persistent `eventA`, then raise; at the root
and nested below a transaction already holding `eventP`. -/
theorem claim_exception_rolls_back_discards_witness :
    noRaise (.emit eventA) = true ∧
    eventA.is_persistent = false ∧
    runStmt busA ⟨[], true⟩ (.scope (.seq (.emit eventA) (.raiseExc 7))) =
      (some (.user 7), ⟨[], true⟩, Trace.empty) ∧
    runStmt busA ⟨[⟨[eventP]⟩], true⟩ (.scope (.seq (.emit eventA) (.raiseExc 7))) =
      (some (.user 7), ⟨[⟨[eventP]⟩], true⟩, Trace.empty) :=
  ⟨by decide, by decide,
    (claim_exception_rolls_back_discards busA true (.emit eventA) 7 (by decide)
      (by decide)).1,
    (claim_exception_rolls_back_discards busA true (.emit eventA) 7 (by decide)
      (by decide)).2 ⟨[eventP]⟩ []⟩

/-- C4: rolling back a root transaction retains exactly the events whose
`is_persistent()` flag is true (`clear()`), and those retained events are
dispatched exactly as a commit of the cleared collector would dispatch them;
non-persistent events are dropped. -/
theorem claim_root_rollback_dispatches_persistent (bus : Bus) (ac : Bool) (c : EventsFifo) :
    UnitOfWork.rollback bus ⟨[c], ac⟩ =
      .ok (⟨[], ac⟩, handleEvents bus (c.queue.filter Event.is_persistent)) ∧
    c.clear.queue = c.queue.filter Event.is_persistent ∧
    UnitOfWork.commit bus ⟨[c.clear], ac⟩ =
      .ok (⟨[], ac⟩, handleEvents bus (c.queue.filter Event.is_persistent)) :=
  ⟨rollback_root bus c ac, rfl, commit_root bus c.clear ac⟩

/-- C5: emitting an event with no transaction in progress is never a silent
queueing: with autocommit on it is dispatched to its subscribers immediately,
with autocommit off `UowTransactionError` is raised. -/
theorem claim_emit_outside_transaction (bus : Bus) (e : Event) :
    UnitOfWork.emit_event bus ⟨[], true⟩ e = .ok (⟨[], true⟩, handleEvents bus [e]) ∧
    UnitOfWork.emit_event bus ⟨[], false⟩ e = .error .uowTransaction ∧
    runStmt bus ⟨[], true⟩ (.emit e) = (none, ⟨[], true⟩, handleEvents bus [e]) ∧
    runStmt bus ⟨[], false⟩ (.emit e) =
      (some (.lib .uowTransaction), ⟨[], false⟩, Trace.empty) := by
  refine ⟨?_, rfl, ?_, rfl⟩ <;>
    simp [runStmt, UnitOfWork.emit_event, UnitOfWork.handle_events]

/-- C6: during final dispatch every matching subscriber of every buffered
event is invoked — a subscriber's exception is caught and logged, does not
stop later subscribers or later events, and does not propagate to the commit
caller (root commit still returns successfully). -/
theorem claim_subscriber_exception_isolated (bus : Bus) (evs : List Event) :
    (handleEvents bus evs).calls = dispatchCalls bus evs ∧
    (handleEvents bus evs).logged =
      (dispatchCalls bus evs).filter (fun call => call.2.fails) ∧
    ∀ (ac : Bool) (c : EventsFifo),
      UnitOfWork.commit bus ⟨[c], ac⟩ = .ok (⟨[], ac⟩, handleEvents bus c.queue) :=
  ⟨handleEvents_calls bus evs, handleEvents_logged bus evs,
    fun ac c => commit_root bus c ac⟩

/-- C7: every well-formed nesting of scopes returns the stack depth to zero
after the outermost exit, and commit/rollback on an empty stack raise
`UowTransactionError` instead of returning normally. -/
theorem claim_balanced_stack (bus : Bus) (ac : Bool) (body : Stmt) :
    (runStmt bus ⟨[], ac⟩ body).2.1.stack = [] ∧
    UnitOfWork.commit bus ⟨[], ac⟩ = .error .uowTransaction ∧
    UnitOfWork.rollback bus ⟨[], ac⟩ = .error .uowTransaction := by
  refine ⟨?_, rfl, rfl⟩
  have h := run_stack_length bus body ⟨[], ac⟩
  simpa [List.length_eq_zero] using h

/-- C8: pushing an event equal to one already present leaves a
`DedupeEventsFifo` completely unchanged — queue contents, order and
first-occurrence position — so push is idempotent. -/
theorem claim_dedupe_push_idempotent (c : DedupeEventsFifo) (e : Event) :
    (e ∈ c.seen → c.push e = c) ∧ (c.push e).push e = c.push e := by
  constructor
  · intro h
    simp [DedupeEventsFifo.push, h]
  · by_cases h : e ∈ c.seen
    · simp [DedupeEventsFifo.push, h]
    · simp [DedupeEventsFifo.push, h]

/-- Witness for C8: pushing `eventA` again into a collector that already
holds it. -/
theorem claim_dedupe_push_idempotent_witness :
    eventA ∈ (DedupeEventsFifo.init.push eventA).seen ∧
    (DedupeEventsFifo.init.push eventA).push eventA = DedupeEventsFifo.init.push eventA :=
  ⟨by decide,
    (claim_dedupe_push_idempotent (DedupeEventsFifo.init.push eventA) eventA).1
      (by decide)⟩

/-- C9: rolling back a nested (non-root) transaction discards even its
persistent events: `clear()` retains them inside the popped collector, but
the popped transaction is never merged into the parent, so nothing is
dispatched; only a root rollback dispatches the retained persistent events. -/
theorem claim_nested_rollback_drops_persistent (bus : Bus) (ac : Bool)
    (c p : EventsFifo) (rest : List EventsFifo) :
    UnitOfWork.rollback bus ⟨c :: p :: rest, ac⟩ = .ok (⟨p :: rest, ac⟩, Trace.empty) ∧
    c.clear.queue = c.queue.filter Event.is_persistent ∧
    UnitOfWork.rollback bus ⟨[c], ac⟩ =
      .ok (⟨[], ac⟩, handleEvents bus (c.queue.filter Event.is_persistent)) :=
  ⟨rollback_cons_cons bus c p rest ac, rfl, rollback_root bus c ac⟩

/-- C10: every `DedupeEventsFifo` reachable from a fresh collector by
successful push/pop/extend/clear operations satisfies the invariant: the
queue has no duplicates, `seen` is the set of queued events, and membership
via the set and via the list agree. -/
theorem claim_dedupe_invariant (ops : List DOp) (c : DedupeEventsFifo)
    (h : dRun ops = some c) :
    c.queue.Nodup ∧ c.seen = c.queue.toFinset ∧
      ∀ e : Event, e ∈ c.seen ↔ e ∈ c.queue := by
  have hinv := dinv_runFrom ops DedupeEventsFifo.init c dinv_init h
  refine ⟨hinv.1, hinv.2, fun e => ?_⟩
  rw [hinv.2]
  exact List.mem_toFinset

/-- The collector reached by pushing `eventA` twice, pushing `eventB`, then
popping. -/
def dedupC : DedupeEventsFifo := ⟨[eventA], {eventA}⟩

/-- Witness for C10: a concrete operation sequence with a duplicate push and
a pop. -/
theorem claim_dedupe_invariant_witness :
    dRun [DOp.push eventA, DOp.push eventA, DOp.push eventB, DOp.pop] = some dedupC ∧
    (dedupC.queue.Nodup ∧ dedupC.seen = dedupC.queue.toFinset ∧
      ∀ e : Event, e ∈ dedupC.seen ↔ e ∈ dedupC.queue) :=
  ⟨by decide,
    claim_dedupe_invariant [DOp.push eventA, DOp.push eventA, DOp.push eventB, DOp.pop]
      dedupC (by decide)⟩

end MB
